import Mathlib

/-!
Verification of the MCP bridge's child-process JSON-RPC client
(`MCPClient` in the bridge service source): the line framer that splits
stdout chunks into newline-delimited messages, and the request
multiplexer that correlates responses to pending requests by id.

Modelling choices, all from the source:
* chunks and messages are character sequences (`List Char`), matching the
  code's string-level processing of `data.toString()`;
* JSON result payloads are abstracted to their serialized text
  (`Option String`, `none` standing for an absent/undefined field);
* the pending-request map is an association list keyed by the numeric id,
  with JavaScript `Map` set/get/delete semantics;
* promise resolutions and rejections are recorded in a settlement log,
  and successful stdin writes in a write log, so that the effects the
  code performs through callbacks are observable on the state.
-/

namespace MCPBridge

/-- Prepends a character onto the first piece of a split result
(the non-newline branch of the splitting recursion). -/
def consHead (c : Char) : List (List Char) → List (List Char)
  | [] => [[c]]
  | p :: ps => (c :: p) :: ps

/-- Model of JavaScript `s.split('\n')` on character sequences: the
pieces between newline characters, in order.  Always nonempty; a string
with no newline yields one piece. -/
def splitNl : List Char → List (List Char)
  | [] => [[]]
  | c :: cs => if c = '\n' then [] :: splitNl cs else consHead c (splitNl cs)

/-- Prepends a (newline-free) remainder onto the first piece of a later
split result; used to state how `splitNl` acts on concatenations. -/
def glueHead (p : List Char) : List (List Char) → List (List Char)
  | [] => [p]
  | q :: qs => (p ++ q) :: qs

/-- Last element of a list of pieces, with a default (models
`lines.pop() || ''`, whose argument is never empty). -/
def lastD (d : List Char) : List (List Char) → List Char
  | [] => d
  | [p] => p
  | _ :: ps => lastD d ps

/-- Reassembly of framed messages: each message followed by the newline
delimiter that terminated it. -/
def unmsgs : List (List Char) → List Char
  | [] => []
  | m :: ms => m ++ '\n' :: unmsgs ms

/-- One `data` event of the stdout handler in `connect`:
`buffer += data.toString(); const lines = buffer.split('\n');
buffer = lines.pop() || '';` — the complete lines, and the new buffer. -/
def processChunk (buffer chunk : List Char) : List (List Char) × List Char :=
  ((splitNl (buffer ++ chunk)).dropLast, lastD [] (splitNl (buffer ++ chunk)))

/-- A sequence of `data` events starting from a given buffer: accumulates
the complete lines of each event, threading the buffer through. -/
def processChunks (buffer : List Char) : List (List Char) → List (List Char) × List Char
  | [] => ([], buffer)
  | chunk :: rest =>
    ((processChunk buffer chunk).1 ++ (processChunks (processChunk buffer chunk).2 rest).1,
     (processChunks (processChunk buffer chunk).2 rest).2)

/-- Per-request deadline, the `setTimeout` delay in `sendRequest`
(15000 ms, applied to every request). -/
def requestTimeoutMs : Nat := 15000

/-- Connection-level deadline, the `setTimeout` delay in `connect`
(60000 ms); it guards the whole handshake, not any single request. -/
def connectionTimeoutMs : Nat := 60000

/-- Error message used by `sendRequest` and `callTool` when there is no
process / no connection. -/
def notConnectedMsg : String := "MCP server not connected"

/-- Fallback rejection message in `handleMessage` when the server error
object carries no message. -/
def mcpErrorMsg : String := "MCP error"

/-- Rejection message of the per-request deadline callback. -/
def timeoutMsg : String := "Request timeout"

/-- Method name of the first handshake call issued by `connect`. -/
def initMethodName : String := "initialize"

/-- Method name of the second handshake call issued by `connect`. -/
def toolsListMethod : String := "tools/list"

/-- Method name used by `callTool`. -/
def toolsCallMethod : String := "tools/call"

/-- Server-supplied `error` object of a JSON-RPC response
(`message.error.message`, `message.error.code`). -/
structure ErrObj where
  message : Option String
  code : Option Int
deriving DecidableEq

/-- A framed message as seen by `handleMessage`: optional `id`,
optional `error` object, and the `result` payload (abstracted to its
serialized text; `none` models an absent field). -/
structure Message where
  id : Option Nat
  error : Option ErrObj
  result : Option String
deriving DecidableEq

/-- Outcome delivered to a pending request's promise: `resolve(result)`
or `reject(new Error(text))`, recorded by its message text. -/
inductive Settlement where
  | resolved : Option String → Settlement
  | rejected : String → Settlement
deriving DecidableEq

/-- An entry of the outstanding-request table: the request's method and
the deadline its `setTimeout` was armed with. -/
structure Pending where
  method : String
  deadlineMs : Nat
deriving DecidableEq

/-- State of one `MCPClient`: `this.process` presence, `this.connected`,
`this.requestId`, `this.pendingRequests`, `this.tools` (tool names), a
log of promise settlements, and a log of successful stdin writes
(id and method of each serialized request). -/
structure ClientState where
  hasProcess : Bool
  connected : Bool
  requestId : Nat
  pendingRequests : List (Nat × Pending)
  tools : List String
  settlements : List (Nat × Settlement)
  writes : List (Nat × String)
deriving DecidableEq

/-- The `MCPClient` constructor: no process, not connected,
`requestId = 1`, empty pending map and tool list. -/
def mkClient : ClientState :=
  { hasProcess := false, connected := false, requestId := 1,
    pendingRequests := [], tools := [], settlements := [], writes := [] }

/-- JavaScript `Map.get` on the association-list model. -/
def findEntry (i : Nat) : List (Nat × Pending) → Option Pending
  | [] => none
  | (j, v) :: rest => if j = i then some v else findEntry i rest

/-- JavaScript `Map.has`. -/
def hasEntry (i : Nat) (l : List (Nat × Pending)) : Bool :=
  (findEntry i l).isSome

/-- JavaScript `Map.set`: updates an existing binding in place, else
appends a new one. -/
def setEntry (i : Nat) (v : Pending) (l : List (Nat × Pending)) :
    List (Nat × Pending) :=
  if hasEntry i l then l.map (fun e => if e.1 = i then (i, v) else e)
  else l ++ [(i, v)]

/-- JavaScript `Map.delete` (keys are unique, so removing every binding
with the key equals removing the one binding). -/
def removeEntry (i : Nat) : List (Nat × Pending) → List (Nat × Pending)
  | [] => []
  | (j, v) :: rest =>
    if j = i then removeEntry i rest else (j, v) :: removeEntry i rest

/-- Number of settlements recorded for a given id. -/
def settleCount (i : Nat) : List (Nat × Settlement) → Nat
  | [] => 0
  | (j, _) :: rest =>
    if j = i then settleCount i rest + 1 else settleCount i rest

/-- The common `this.pendingRequests.delete(id); reject/resolve(...)`
step: drops the entry and records the settlement of its promise. -/
def settleEntry (s : ClientState) (i : Nat) (st : Settlement) : ClientState :=
  { s with pendingRequests := removeEntry i s.pendingRequests,
           settlements := s.settlements ++ [(i, st)] }

/-- JavaScript `x || d` on an optional string: the fallback fires on a
missing or empty message. -/
def jsOrDefault : Option String → String → String
  | none, d => d
  | some t, d => if t = "" then d else t

/-- Settlement chosen by `handleMessage` for a matched response:
`reject(new Error(message.error.message || 'MCP error'))` when an
`error` field is present (the error code is not used), else
`resolve(message.result)`. -/
def settlementOf (msg : Message) : Settlement :=
  match msg.error with
  | some e => .rejected (jsOrDefault e.message mcpErrorMsg)
  | none => .resolved msg.result

/-- `MCPClient.handleMessage`: if the message's id is truthy and matches
a pending entry, remove the entry and settle its promise; otherwise do
nothing. -/
def handleMessage (s : ClientState) (msg : Message) : ClientState :=
  match msg.id with
  | none => s
  | some i =>
    if 0 < i ∧ hasEntry i s.pendingRequests = true then
      settleEntry s i (settlementOf msg)
    else s

/-- The per-request `setTimeout` callback in `sendRequest`: if the id is
still pending, remove it and reject with the timeout error. -/
def expireRequest (s : ClientState) (i : Nat) : ClientState :=
  if hasEntry i s.pendingRequests = true then
    settleEntry s i (.rejected timeoutMsg)
  else s

/-- `MCPClient.sendRequest`: rejects immediately with no state change
when there is no process; otherwise allocates `id = requestId++`,
registers the pending entry with the 15-second deadline, then writes the
serialized request — and on a write exception (`writeErr = some e`)
deletes the just-registered entry and rejects with the thrown error. -/
def sendRequest (s : ClientState) (method : String) (writeErr : Option String) :
    ClientState × Except String Nat :=
  if s.hasProcess = false then (s, .error notConnectedMsg)
  else
    let i := s.requestId
    let s1 : ClientState :=
      { s with requestId := s.requestId + 1,
               pendingRequests := setEntry i ⟨method, requestTimeoutMs⟩ s.pendingRequests }
    match writeErr with
    | none => ({ s1 with writes := s1.writes ++ [(i, method)] }, .ok i)
    | some e => (settleEntry s1 i (.rejected e), .error e)

/-- `MCPClient.callTool`: throws the not-connected error before touching
anything when `this.connected` is false; otherwise delegates to
`sendRequest` with method `tools/call`. -/
def callTool (s : ClientState) (name : String) (writeErr : Option String) :
    ClientState × Except String Unit :=
  if s.connected = false then (s, .error notConnectedMsg)
  else
    ((sendRequest s toolsCallMethod writeErr).1,
     match (sendRequest s toolsCallMethod writeErr).2 with
     | .ok _ => .ok ()
     | .error e => .error e)

/-- The `close` handler installed by `connect`: `this.connected = false`
(the pending table is not touched; the cleared timer is the
connection-level one, modelled by `connectHandshake`). -/
def handleClose (s : ClientState) : ClientState :=
  { s with connected := false }

/-- Continuation logic of `connect` after the two handshake calls, as a
function of their outcomes: an `initialize` failure propagates to the
`connect` promise; on `initialize` success a `tools/list` failure is
caught and only logged, `this.tools` is set from the result (`.tools`
missing giving `[]`, tool descriptors abstracted to their names), and in
either case `this.connected = true` and `connect` resolves. -/
def connectHandshake (s : ClientState)
    (initOutcome : Except String (Option String))
    (toolsOutcome : Except String (Option (List String))) :
    ClientState × Except String Unit :=
  match initOutcome with
  | .error e => (s, .error e)
  | .ok _ =>
    match toolsOutcome with
    | .error _ => ({ s with connected := true }, .ok ())
    | .ok ts => ({ s with tools := ts.getD [], connected := true }, .ok ())

/-- Events of one connection's lifetime that touch the client state:
process spawn, a `sendRequest` call (with the outcome of its stdin
write), a framed message arriving, a per-request deadline firing, the
process `close` event, and a `callTool` call. -/
inductive Event where
  | spawn
  | send (method : String) (writeErr : Option String)
  | recv (msg : Message)
  | expire (i : Nat)
  | close
  | call (name : String) (writeErr : Option String)
deriving DecidableEq

/-- Effect of one event on the client state. -/
def step (s : ClientState) : Event → ClientState
  | .spawn => { s with hasProcess := true }
  | .send m w => (sendRequest s m w).1
  | .recv msg => handleMessage s msg
  | .expire i => expireRequest s i
  | .close => handleClose s
  | .call n w => (callTool s n w).1

/-- Folds a sequence of events over the state. -/
def run (s : ClientState) : List Event → ClientState
  | [] => s
  | e :: es => run (step s e) es

/-- Ids allocated (`this.requestId++`) by one event. -/
def assignedOf (s : ClientState) : Event → List Nat
  | .send _ _ => if s.hasProcess = true then [s.requestId] else []
  | .call _ _ =>
    if s.connected = true ∧ s.hasProcess = true then [s.requestId] else []
  | _ => []

/-- Ids allocated over a sequence of events, in allocation order. -/
def assignedIds (s : ClientState) : List Event → List Nat
  | [] => []
  | e :: es => assignedOf s e ++ assignedIds (step s e) es

/-- Keys of the outstanding-request table. -/
def pendingIds (s : ClientState) : List Nat :=
  s.pendingRequests.map Prod.fst

/-- Connection-lifetime invariant of the multiplexer: the id counter is
at least 1, pending ids are positive, below the counter and pairwise
distinct, settled ids are below the counter, a pending id has no
settlement yet, and no id is ever settled twice. -/
def Inv (s : ClientState) : Prop :=
  1 ≤ s.requestId ∧
  (∀ i ∈ pendingIds s, 0 < i ∧ i < s.requestId) ∧
  (pendingIds s).Nodup ∧
  (∀ pr ∈ s.settlements, pr.1 < s.requestId) ∧
  (∀ i, hasEntry i s.pendingRequests = true → settleCount i s.settlements = 0) ∧
  (∀ i, settleCount i s.settlements ≤ 1)

/-- Example state: a spawned but not yet connected client. -/
def exSpawned : ClientState :=
  { hasProcess := true, connected := false, requestId := 1,
    pendingRequests := [], tools := [], settlements := [], writes := [] }

/-- Example state: a connected client with request 1 outstanding. -/
def exReady : ClientState :=
  { hasProcess := true, connected := true, requestId := 2,
    pendingRequests := [(1, ⟨toolsCallMethod, requestTimeoutMs⟩)],
    tools := [], settlements := [], writes := [] }

/-- Example server error message used in concrete instances. -/
def errBoom : String := "boom"

theorem splitNl_ne_nil : ∀ l : List Char, splitNl l ≠ [] := by
  intro l
  induction l with
  | nil => simp [splitNl]
  | cons c cs ih =>
    simp only [splitNl]
    split
    · simp
    · cases h : splitNl cs with
      | nil => exact absurd h ih
      | cons p ps => simp [consHead]

theorem splitNl_cons_dest (cs : List Char) :
    ∃ p ps, splitNl cs = p :: ps := by
  cases h : splitNl cs with
  | nil => exact absurd h (splitNl_ne_nil cs)
  | cons p ps => exact ⟨p, ps, rfl⟩

theorem glueHead_ne_nil (p : List Char) (l : List (List Char)) :
    glueHead p l ≠ [] := by
  cases l <;> simp [glueHead]

theorem glueHead_nil_of_ne_nil {l : List (List Char)} (h : l ≠ []) :
    glueHead [] l = l := by
  cases l with
  | nil => exact absurd rfl h
  | cons q qs => simp [glueHead]

theorem consHead_glueHead (c : Char) (p : List Char)
    (l : List (List Char)) (h : l ≠ []) :
    consHead c (glueHead p l) = glueHead (c :: p) l := by
  cases l with
  | nil => exact absurd rfl h
  | cons q qs => simp [glueHead, consHead]

/-- Concatenation lemma for newline-free prefixes: splitting `p ++ v`
when `p` has no newline just extends the first piece of `splitNl v`. -/
theorem splitNl_append_of_not_mem {p : List Char} (hp : '\n' ∉ p)
    (v : List Char) : splitNl (p ++ v) = glueHead p (splitNl v) := by
  induction p with
  | nil => simp [glueHead_nil_of_ne_nil (splitNl_ne_nil v)]
  | cons c p' ih =>
    have hc : c ≠ '\n' := fun h => hp (by simp [h])
    have hp' : '\n' ∉ p' := fun h => hp (by simp [h])
    rw [List.cons_append, splitNl, if_neg hc, ih hp']
    exact consHead_glueHead c p' (splitNl v) (splitNl_ne_nil v)

theorem splitNl_single_of_not_mem {p : List Char} (hp : '\n' ∉ p) :
    splitNl p = [p] := by
  have h := splitNl_append_of_not_mem hp []
  rw [List.append_nil] at h
  rw [h]
  simp [splitNl, glueHead]

theorem lastD_cons_of_ne_nil (d p : List Char) (ps : List (List Char))
    (h : ps ≠ []) : lastD d (p :: ps) = lastD d ps := by
  cases ps with
  | nil => exact absurd rfl h
  | cons q qs => rfl

theorem dropLast_cons_of_ne_nil (p : List Char) (ps : List (List Char))
    (h : ps ≠ []) : (p :: ps).dropLast = p :: ps.dropLast := by
  cases ps with
  | nil => exact absurd rfl h
  | cons q qs => rfl

/-- Splitting a concatenation: the pieces of `a` except the last, then
the pieces of `b` with the last piece of `a` glued onto the first. -/
theorem splitNl_append (a b : List Char) :
    splitNl (a ++ b) =
      (splitNl a).dropLast ++ glueHead (lastD [] (splitNl a)) (splitNl b) := by
  induction a with
  | nil => simp [splitNl, lastD, glueHead_nil_of_ne_nil (splitNl_ne_nil b)]
  | cons c a' ih =>
    obtain ⟨p, ps, hsa⟩ := splitNl_cons_dest a'
    by_cases hc : c = '\n'
    · rw [List.cons_append, splitNl, if_pos hc, ih, splitNl, if_pos hc, hsa,
        dropLast_cons_of_ne_nil [] (p :: ps) (by simp),
        lastD_cons_of_ne_nil [] [] (p :: ps) (by simp), List.cons_append]
    · rw [List.cons_append, splitNl, if_neg hc, ih, splitNl, if_neg hc, hsa]
      cases ps with
      | nil =>
        simp only [List.dropLast_single, List.nil_append, lastD, consHead]
        exact consHead_glueHead c p (splitNl b) (splitNl_ne_nil b)
      | cons q qs =>
        rw [dropLast_cons_of_ne_nil p (q :: qs) (by simp),
          lastD_cons_of_ne_nil [] p (q :: qs) (by simp), List.cons_append]
        simp only [consHead]
        rw [dropLast_cons_of_ne_nil (c :: p) (q :: qs) (by simp),
          lastD_cons_of_ne_nil [] (c :: p) (q :: qs) (by simp),
          List.cons_append]

theorem splitNl_length (l : List Char) :
    (splitNl l).length = l.count '\n' + 1 := by
  induction l with
  | nil => simp [splitNl]
  | cons c cs ih =>
    obtain ⟨p, ps, hsa⟩ := splitNl_cons_dest cs
    by_cases hc : c = '\n'
    · simp [splitNl, hc, ih, List.count_cons]
    · rw [splitNl, if_neg hc, hsa, consHead]
      rw [hsa] at ih
      simp only [List.length_cons] at ih ⊢
      rw [ih]
      simp [List.count_cons, hc]

theorem splitNl_no_nl (l : List Char) :
    ∀ m ∈ splitNl l, '\n' ∉ m := by
  induction l with
  | nil => intro m hm; simp [splitNl] at hm; simp [hm]
  | cons c cs ih =>
    intro m hm
    by_cases hc : c = '\n'
    · rw [splitNl, if_pos hc] at hm
      rcases List.mem_cons.mp hm with h | h
      · simp [h]
      · exact ih m h
    · obtain ⟨p, ps, hsa⟩ := splitNl_cons_dest cs
      rw [splitNl, if_neg hc, hsa, consHead] at hm
      rcases List.mem_cons.mp hm with h | h
      · subst h
        intro hmem
        rcases List.mem_cons.mp hmem with h | h
        · exact hc h.symm
        · exact ih p (by rw [hsa]; simp) h
      · exact ih m (by rw [hsa]; exact List.mem_cons_of_mem p h)

theorem lastD_mem {l : List (List Char)} (d : List Char) (h : l ≠ []) :
    lastD d l ∈ l := by
  induction l with
  | nil => exact absurd rfl h
  | cons p ps ih =>
    cases ps with
    | nil => simp [lastD]
    | cons q qs =>
      rw [lastD_cons_of_ne_nil d p (q :: qs) (by simp)]
      exact List.mem_cons_of_mem p (ih (by simp))

theorem lastD_append_of_ne_nil (d : List Char) (A : List (List Char))
    {s : List (List Char)} (h : s ≠ []) : lastD d (A ++ s) = lastD d s := by
  induction A with
  | nil => rfl
  | cons a A' ih =>
    rw [List.cons_append, lastD_cons_of_ne_nil d a (A' ++ s)
      (fun hjoin => h (List.append_eq_nil.mp hjoin).2), ih]

theorem dropLast_append_of_ne_nil (A : List (List Char))
    {s : List (List Char)} (h : s ≠ []) :
    (A ++ s).dropLast = A ++ s.dropLast := by
  induction A with
  | nil => rfl
  | cons a A' ih =>
    rw [List.cons_append, dropLast_cons_of_ne_nil a (A' ++ s)
      (fun hjoin => h (List.append_eq_nil.mp hjoin).2), ih, List.cons_append]

/-- Reconstruction: re-appending the newline delimiter to every complete
piece and then the trailing piece gives back the original text. -/
theorem splitNl_reconstruct (l : List Char) :
    unmsgs (splitNl l).dropLast ++ lastD [] (splitNl l) = l := by
  induction l with
  | nil => rfl
  | cons c cs ih =>
    obtain ⟨p, ps, hsa⟩ := splitNl_cons_dest cs
    rw [hsa] at ih
    by_cases hc : c = '\n'
    · rw [splitNl, if_pos hc, hsa,
        dropLast_cons_of_ne_nil [] (p :: ps) (by simp),
        lastD_cons_of_ne_nil [] [] (p :: ps) (by simp)]
      show ([] ++ '\n' :: unmsgs (p :: ps).dropLast) ++ _ = _
      rw [List.nil_append, List.cons_append, ih, hc]
    · rw [splitNl, if_neg hc, hsa, consHead]
      cases ps with
      | nil =>
        simp only [List.dropLast_single, lastD, unmsgs, List.nil_append]
        simp only [List.dropLast_single, lastD, unmsgs, List.nil_append] at ih
        rw [ih]
      | cons q qs =>
        rw [dropLast_cons_of_ne_nil (c :: p) (q :: qs) (by simp),
          lastD_cons_of_ne_nil [] (c :: p) (q :: qs) (by simp)]
        rw [dropLast_cons_of_ne_nil p (q :: qs) (by simp),
          lastD_cons_of_ne_nil [] p (q :: qs) (by simp)] at ih
        show ((c :: p) ++ '\n' :: unmsgs (q :: qs).dropLast) ++ _ = _
        rw [← ih]
        simp [unmsgs, List.append_assoc]

/-- Feeding `u ++ v` in one chunk equals feeding `u` then `v`. -/
theorem processChunk_fusion (buffer u v : List Char) :
    processChunk buffer (u ++ v) =
      ((processChunk buffer u).1 ++ (processChunk (processChunk buffer u).2 v).1,
       (processChunk (processChunk buffer u).2 v).2) := by
  have hb : '\n' ∉ lastD [] (splitNl (buffer ++ u)) :=
    splitNl_no_nl (buffer ++ u) _ (lastD_mem [] (splitNl_ne_nil _))
  have hmain : splitNl (buffer ++ (u ++ v))
      = (splitNl (buffer ++ u)).dropLast
        ++ glueHead (lastD [] (splitNl (buffer ++ u))) (splitNl v) := by
    rw [← List.append_assoc]
    exact splitNl_append (buffer ++ u) v
  have hg : glueHead (lastD [] (splitNl (buffer ++ u))) (splitNl v) ≠ [] :=
    glueHead_ne_nil _ _
  show ((splitNl (buffer ++ (u ++ v))).dropLast, lastD [] (splitNl (buffer ++ (u ++ v)))) = _
  rw [hmain, dropLast_append_of_ne_nil _ hg, lastD_append_of_ne_nil [] _ hg]
  show _ = ((splitNl (buffer ++ u)).dropLast
      ++ (splitNl (lastD [] (splitNl (buffer ++ u)) ++ v)).dropLast,
    lastD [] (splitNl (lastD [] (splitNl (buffer ++ u)) ++ v)))
  rw [splitNl_append_of_not_mem hb v]

/-- Collapsing a whole chunk sequence: starting from a newline-free
buffer, processing the chunks one by one equals processing their
concatenation in one call. -/
theorem processChunks_flatten :
    ∀ (chunks : List (List Char)) (buffer : List Char), '\n' ∉ buffer →
      processChunks buffer chunks = processChunk buffer chunks.flatten := by
  intro chunks
  induction chunks with
  | nil =>
    intro buffer hb
    show ([], buffer) = processChunk buffer [].flatten
    show ([], buffer) = processChunk buffer []
    rw [processChunk, List.append_nil, splitNl_single_of_not_mem hb]
    rfl
  | cons c cs ih =>
    intro buffer hb
    have hb1 : '\n' ∉ (processChunk buffer c).2 :=
      splitNl_no_nl _ _ (lastD_mem [] (splitNl_ne_nil _))
    show ((processChunk buffer c).1 ++ (processChunks (processChunk buffer c).2 cs).1,
          (processChunks (processChunk buffer c).2 cs).2) = _
    rw [ih _ hb1, List.flatten_cons, processChunk_fusion buffer c cs.flatten]

theorem mem_of_mem_dropLast {α : Type} {a : α} :
    ∀ {l : List α}, a ∈ l.dropLast → a ∈ l := by
  intro l
  induction l with
  | nil => intro h; exact absurd h (by simp)
  | cons x xs ih =>
    intro h
    cases xs with
    | nil => exact absurd h (by simp)
    | cons y ys =>
      rw [show (x :: y :: ys).dropLast = x :: (y :: ys).dropLast from rfl] at h
      rcases List.mem_cons.mp h with h | h
      · exact h ▸ List.mem_cons_self x (y :: ys)
      · exact List.mem_cons_of_mem x (ih h)

theorem mem_map_fst_of_findEntry {i : Nat} {l : List (Nat × Pending)}
    {v : Pending} (h : findEntry i l = some v) : i ∈ l.map Prod.fst := by
  induction l with
  | nil => simp [findEntry] at h
  | cons e rest ih =>
    cases e with
    | mk j w =>
      by_cases hj : j = i
      · subst hj; simp
      · rw [findEntry, if_neg hj] at h
        exact List.mem_cons_of_mem j (ih h)

theorem findEntry_eq_none_iff (i : Nat) (l : List (Nat × Pending)) :
    findEntry i l = none ↔ i ∉ l.map Prod.fst := by
  induction l with
  | nil => simp [findEntry]
  | cons e rest ih =>
    cases e with
    | mk j w =>
      by_cases hj : j = i
      · subst hj; simp [findEntry]
      · rw [findEntry, if_neg hj]
        simp only [List.map_cons, List.mem_cons]
        rw [ih]
        constructor
        · intro h hor
          rcases hor with h1 | h2
          · exact hj h1.symm
          · exact h h2
        · intro h h2
          exact h (Or.inr h2)

theorem hasEntry_iff_mem (i : Nat) (l : List (Nat × Pending)) :
    hasEntry i l = true ↔ i ∈ l.map Prod.fst := by
  constructor
  · intro hs
    cases h : findEntry i l with
    | none => rw [hasEntry, h] at hs; simp at hs
    | some v => exact mem_map_fst_of_findEntry h
  · intro hm
    rw [hasEntry]
    cases h : findEntry i l with
    | none => exact absurd hm ((findEntry_eq_none_iff i l).mp h)
    | some v => rfl

theorem findEntry_append_of_none {i : Nat} {l : List (Nat × Pending)}
    (l' : List (Nat × Pending)) (h : findEntry i l = none) :
    findEntry i (l ++ l') = findEntry i l' := by
  induction l with
  | nil => rfl
  | cons e rest ih =>
    cases e with
    | mk j w =>
      by_cases hj : j = i
      · rw [findEntry, if_pos hj] at h; exact absurd h (by simp)
      · rw [findEntry, if_neg hj] at h
        rw [List.cons_append, findEntry, if_neg hj]
        exact ih h

theorem findEntry_append_of_some {i : Nat} {l : List (Nat × Pending)}
    {v : Pending} (l' : List (Nat × Pending)) (h : findEntry i l = some v) :
    findEntry i (l ++ l') = some v := by
  induction l with
  | nil => simp [findEntry] at h
  | cons e rest ih =>
    cases e with
    | mk j w =>
      by_cases hj : j = i
      · rw [findEntry, if_pos hj] at h
        rw [List.cons_append, findEntry, if_pos hj]
        exact h
      · rw [findEntry, if_neg hj] at h
        rw [List.cons_append, findEntry, if_neg hj]
        exact ih h

theorem setEntry_of_not_has {i : Nat} {l : List (Nat × Pending)}
    (v : Pending) (h : hasEntry i l = false) :
    setEntry i v l = l ++ [(i, v)] := by
  rw [setEntry, h]
  simp

theorem findEntry_map_update {i : Nat} {l : List (Nat × Pending)}
    (v : Pending) (h : hasEntry i l = true) :
    findEntry i (l.map (fun e => if e.1 = i then (i, v) else e)) = some v := by
  induction l with
  | nil => simp [hasEntry, findEntry] at h
  | cons e rest ih =>
    cases e with
    | mk j w =>
      by_cases hj : j = i
      · simp only [List.map_cons, if_pos hj]
        rw [findEntry, if_pos rfl]
      · simp only [List.map_cons, if_neg hj]
        rw [findEntry, if_neg hj]
        rw [hasEntry, findEntry, if_neg hj] at h
        exact ih h

theorem findEntry_map_update_ne {j i : Nat} (hne : j ≠ i)
    (v : Pending) (l : List (Nat × Pending)) :
    findEntry j (l.map (fun e => if e.1 = i then (i, v) else e)) =
      findEntry j l := by
  induction l with
  | nil => rfl
  | cons e rest ih =>
    cases e with
    | mk k w =>
      by_cases hk : k = i
      · simp only [List.map_cons, if_pos hk]
        rw [findEntry, if_neg (fun h => hne h.symm), findEntry,
          if_neg (fun h => hne (hk ▸ h).symm)]
        exact ih
      · simp only [List.map_cons, if_neg hk]
        rw [findEntry, findEntry]
        by_cases hkj : k = j
        · rw [if_pos hkj, if_pos hkj]
        · rw [if_neg hkj, if_neg hkj]
          exact ih

theorem findEntry_setEntry_self (i : Nat) (v : Pending)
    (l : List (Nat × Pending)) :
    findEntry i (setEntry i v l) = some v := by
  cases h : hasEntry i l with
  | true =>
    rw [setEntry, h]
    simp only [if_true]
    exact findEntry_map_update v h
  | false =>
    rw [setEntry_of_not_has v h]
    have hn : findEntry i l = none := by
      rw [hasEntry] at h
      cases hf : findEntry i l with
      | none => rfl
      | some w => rw [hf] at h; simp at h
    rw [findEntry_append_of_none _ hn, findEntry, if_pos rfl]

theorem findEntry_setEntry_ne {j i : Nat} (hne : j ≠ i) (v : Pending)
    (l : List (Nat × Pending)) :
    findEntry j (setEntry i v l) = findEntry j l := by
  cases h : hasEntry i l with
  | true =>
    rw [setEntry, h]
    simp only [if_true]
    exact findEntry_map_update_ne hne v l
  | false =>
    rw [setEntry_of_not_has v h]
    cases hf : findEntry j l with
    | none =>
      rw [findEntry_append_of_none _ hf, findEntry,
        if_neg (fun hh => hne hh.symm)]
      rfl
    | some w => rw [findEntry_append_of_some _ hf]

theorem findEntry_removeEntry_self (i : Nat) (l : List (Nat × Pending)) :
    findEntry i (removeEntry i l) = none := by
  induction l with
  | nil => rfl
  | cons e rest ih =>
    cases e with
    | mk j w =>
      by_cases hj : j = i
      · rw [removeEntry, if_pos hj]; exact ih
      · rw [removeEntry, if_neg hj, findEntry, if_neg hj]; exact ih

theorem findEntry_removeEntry_ne {j i : Nat} (hne : j ≠ i)
    (l : List (Nat × Pending)) :
    findEntry j (removeEntry i l) = findEntry j l := by
  induction l with
  | nil => rfl
  | cons e rest ih =>
    cases e with
    | mk k w =>
      by_cases hk : k = i
      · rw [removeEntry, if_pos hk, findEntry,
          if_neg (show ¬k = j from fun h => hne (h ▸ hk))]
        exact ih
      · rw [removeEntry, if_neg hk, findEntry, findEntry]
        by_cases hkj : k = j
        · rw [if_pos hkj, if_pos hkj]
        · rw [if_neg hkj, if_neg hkj]
          exact ih

theorem removeEntry_map_fst_sublist (i : Nat) (l : List (Nat × Pending)) :
    List.Sublist ((removeEntry i l).map Prod.fst) (l.map Prod.fst) := by
  induction l with
  | nil => simp [removeEntry]
  | cons e rest ih =>
    cases e with
    | mk j w =>
      by_cases hj : j = i
      · rw [removeEntry, if_pos hj]
        exact List.Sublist.cons j ih
      · rw [removeEntry, if_neg hj]
        exact List.Sublist.cons₂ j ih

theorem removeEntry_append (i : Nat) (a b : List (Nat × Pending)) :
    removeEntry i (a ++ b) = removeEntry i a ++ removeEntry i b := by
  induction a with
  | nil => rfl
  | cons e rest ih =>
    cases e with
    | mk j w =>
      by_cases hj : j = i
      · rw [List.cons_append, removeEntry, if_pos hj, removeEntry, if_pos hj, ih]
      · rw [List.cons_append, removeEntry, if_neg hj, removeEntry, if_neg hj,
          ih, List.cons_append]

theorem removeEntry_map_update (i : Nat) (v : Pending)
    (l : List (Nat × Pending)) :
    removeEntry i (l.map (fun e => if e.1 = i then (i, v) else e)) =
      removeEntry i l := by
  induction l with
  | nil => rfl
  | cons e rest ih =>
    cases e with
    | mk j w =>
      by_cases hj : j = i
      · simp only [List.map_cons, if_pos hj]
        rw [removeEntry, if_pos rfl, removeEntry, if_pos hj]
        exact ih
      · simp only [List.map_cons, if_neg hj]
        rw [removeEntry, if_neg hj, removeEntry, if_neg hj, ih]

theorem removeEntry_setEntry (i : Nat) (v : Pending)
    (l : List (Nat × Pending)) :
    removeEntry i (setEntry i v l) = removeEntry i l := by
  cases h : hasEntry i l with
  | true =>
    rw [setEntry, h]
    simp only [if_true]
    exact removeEntry_map_update i v l
  | false =>
    rw [setEntry_of_not_has v h, removeEntry_append]
    rw [show removeEntry i [(i, v)] = [] from by rw [removeEntry, if_pos rfl]; rfl]
    rw [List.append_nil]

theorem settleCount_append (i : Nat) (a b : List (Nat × Settlement)) :
    settleCount i (a ++ b) = settleCount i a + settleCount i b := by
  induction a with
  | nil => simp [settleCount]
  | cons e rest ih =>
    cases e with
    | mk j st =>
      by_cases hj : j = i
      · rw [List.cons_append, settleCount, if_pos hj, settleCount, if_pos hj, ih]
        omega
      · rw [List.cons_append, settleCount, if_neg hj, settleCount, if_neg hj, ih]

theorem settleCount_singleton (i j : Nat) (st : Settlement) :
    settleCount i [(j, st)] = if j = i then 1 else 0 := by
  by_cases hj : j = i <;> simp [settleCount, hj]

theorem settleCount_eq_zero_of_bound {n : Nat} {log : List (Nat × Settlement)}
    (h : ∀ pr ∈ log, pr.1 < n) : settleCount n log = 0 := by
  induction log with
  | nil => rfl
  | cons e rest ih =>
    cases e with
    | mk j st =>
      have hj : j < n := h (j, st) (List.mem_cons_self _ _)
      rw [settleCount, if_neg (fun hh => absurd hh (by omega))]
      exact ih (fun pr hpr => h pr (List.mem_cons_of_mem _ hpr))

theorem handleMessage_id_none {s : ClientState} {msg : Message}
    (h : msg.id = none) : handleMessage s msg = s := by
  simp only [handleMessage, h]

theorem handleMessage_matched {s : ClientState} {msg : Message} {i : Nat}
    (hid : msg.id = some i) (h : 0 < i ∧ hasEntry i s.pendingRequests = true) :
    handleMessage s msg = settleEntry s i (settlementOf msg) := by
  simp only [handleMessage, hid]
  rw [if_pos h]

theorem handleMessage_unmatched {s : ClientState} {msg : Message} {i : Nat}
    (hid : msg.id = some i)
    (h : ¬(0 < i ∧ hasEntry i s.pendingRequests = true)) :
    handleMessage s msg = s := by
  simp only [handleMessage, hid]
  rw [if_neg h]

theorem expireRequest_pending {s : ClientState} {i : Nat}
    (h : hasEntry i s.pendingRequests = true) :
    expireRequest s i = settleEntry s i (.rejected timeoutMsg) := by
  rw [expireRequest, if_pos h]

theorem expireRequest_not_pending {s : ClientState} {i : Nat}
    (h : hasEntry i s.pendingRequests = false) :
    expireRequest s i = s := by
  rw [expireRequest, if_neg (by rw [h]; simp)]

theorem sendRequest_no_process {s : ClientState} (m : String)
    (w : Option String) (hp : s.hasProcess = false) :
    sendRequest s m w = (s, .error notConnectedMsg) := by
  rw [sendRequest, if_pos hp]

theorem sendRequest_write_ok {s : ClientState} (m : String)
    (hp : s.hasProcess = true) :
    sendRequest s m none =
      ({ s with
          requestId := s.requestId + 1
          pendingRequests := setEntry s.requestId ⟨m, requestTimeoutMs⟩ s.pendingRequests
          writes := s.writes ++ [(s.requestId, m)] }, .ok s.requestId) := by
  simp [sendRequest, hp]

theorem sendRequest_write_fail {s : ClientState} (m : String) (e : String)
    (hp : s.hasProcess = true) :
    sendRequest s m (some e) =
      (settleEntry
        { s with
            requestId := s.requestId + 1
            pendingRequests := setEntry s.requestId ⟨m, requestTimeoutMs⟩ s.pendingRequests }
        s.requestId (.rejected e), .error e) := by
  simp [sendRequest, hp]

theorem callTool_not_connected {s : ClientState} (n : String)
    (w : Option String) (h : s.connected = false) :
    callTool s n w = (s, .error notConnectedMsg) := by
  rw [callTool, if_pos h]

theorem callTool_connected {s : ClientState} (n : String)
    (w : Option String) (h : s.connected = true) :
    (callTool s n w).1 = (sendRequest s toolsCallMethod w).1 := by
  rw [callTool, if_neg (by rw [h]; simp)]

theorem hasEntry_eq_false_of_bound {s : ClientState}
    (h2 : ∀ i ∈ pendingIds s, 0 < i ∧ i < s.requestId) :
    hasEntry s.requestId s.pendingRequests = false := by
  cases h : hasEntry s.requestId s.pendingRequests with
  | false => rfl
  | true =>
    have hm := (hasEntry_iff_mem _ _).mp h
    exact absurd (h2 _ hm).2 (lt_irrefl _)

theorem inv_mkClient : Inv mkClient := by
  refine ⟨le_refl 1, ?_, ?_, ?_, ?_, ?_⟩
  · intro i h; simp [mkClient, pendingIds] at h
  · simp [mkClient, pendingIds]
  · intro pr h; simp [mkClient] at h
  · intro i h; simp [mkClient, hasEntry, findEntry] at h
  · intro i; simp [mkClient, settleCount]

theorem inv_settleEntry {s : ClientState} {i : Nat} (st : Settlement)
    (hinv : Inv s) (h : hasEntry i s.pendingRequests = true) :
    Inv (settleEntry s i st) := by
  obtain ⟨h1, h2, h3, h4, h5, h6⟩ := hinv
  have hmem : i ∈ pendingIds s := (hasEntry_iff_mem _ _).mp h
  have hi := h2 i hmem
  refine ⟨h1, ?_, ?_, ?_, ?_, ?_⟩
  · intro j hj
    exact h2 j ((removeEntry_map_fst_sublist i s.pendingRequests).subset hj)
  · exact List.Nodup.sublist (removeEntry_map_fst_sublist i s.pendingRequests) h3
  · intro pr hpr
    rcases List.mem_append.mp hpr with hold | hnew
    · exact h4 pr hold
    · rw [List.mem_singleton] at hnew
      rw [hnew]
      exact hi.2
  · intro j hj
    have hne : j ≠ i := by
      intro hji
      subst hji
      rw [hasEntry] at hj
      rw [show (settleEntry s j st).pendingRequests
          = removeEntry j s.pendingRequests from rfl] at hj
      rw [findEntry_removeEntry_self] at hj
      simp at hj
    have hj' : hasEntry j s.pendingRequests = true := by
      rw [hasEntry] at hj ⊢
      rw [show (settleEntry s i st).pendingRequests
          = removeEntry i s.pendingRequests from rfl] at hj
      rw [findEntry_removeEntry_ne hne] at hj
      exact hj
    show settleCount j (s.settlements ++ [(i, st)]) = 0
    rw [settleCount_append, h5 j hj', settleCount_singleton,
      if_neg (fun hh => hne hh.symm)]
  · intro j
    show settleCount j (s.settlements ++ [(i, st)]) ≤ 1
    rw [settleCount_append, settleCount_singleton]
    by_cases hij : i = j
    · subst hij
      rw [h5 i h, if_pos rfl]
    · rw [if_neg hij]
      have := h6 j
      omega

theorem inv_register {s : ClientState} (m : String) (hinv : Inv s) :
    Inv { s with
      requestId := s.requestId + 1
      pendingRequests := setEntry s.requestId ⟨m, requestTimeoutMs⟩ s.pendingRequests } := by
  obtain ⟨h1, h2, h3, h4, h5, h6⟩ := hinv
  have hfresh : hasEntry s.requestId s.pendingRequests = false :=
    hasEntry_eq_false_of_bound h2
  have hpend : setEntry s.requestId ⟨m, requestTimeoutMs⟩ s.pendingRequests
      = s.pendingRequests ++ [(s.requestId, ⟨m, requestTimeoutMs⟩)] :=
    setEntry_of_not_has _ hfresh
  have hnotmem : s.requestId ∉ pendingIds s := by
    intro hm
    exact absurd (h2 _ hm).2 (lt_irrefl _)
  have hids : (setEntry s.requestId ⟨m, requestTimeoutMs⟩ s.pendingRequests).map Prod.fst
      = pendingIds s ++ [s.requestId] := by
    rw [hpend, List.map_append]
    rfl
  refine ⟨?_, ?_, ?_, ?_, ?_, ?_⟩
  · show 1 ≤ s.requestId + 1
    omega
  · intro j hj
    show 0 < j ∧ j < s.requestId + 1
    rw [show pendingIds { s with
        requestId := s.requestId + 1
        pendingRequests := setEntry s.requestId ⟨m, requestTimeoutMs⟩ s.pendingRequests }
      = (setEntry s.requestId ⟨m, requestTimeoutMs⟩ s.pendingRequests).map Prod.fst
      from rfl, hids] at hj
    rcases List.mem_append.mp hj with hold | hnew
    · have := h2 j hold
      exact ⟨this.1, by omega⟩
    · rw [List.mem_singleton] at hnew
      subst hnew
      exact ⟨by omega, by omega⟩
  · show ((setEntry s.requestId ⟨m, requestTimeoutMs⟩ s.pendingRequests).map Prod.fst).Nodup
    rw [hids]
    refine List.Nodup.append h3 (by simp) ?_
    intro x hx hmem
    rw [List.mem_singleton] at hmem
    subst hmem
    exact hnotmem hx
  · intro pr hpr
    show pr.1 < s.requestId + 1
    have := h4 pr hpr
    omega
  · intro j hj
    show settleCount j s.settlements = 0
    have hjm : j ∈ pendingIds s ++ [s.requestId] := by
      rw [← hids]
      exact (hasEntry_iff_mem _ _).mp hj
    rcases List.mem_append.mp hjm with hold | hnew
    · exact h5 j ((hasEntry_iff_mem _ _).mpr hold)
    · rw [List.mem_singleton] at hnew
      subst hnew
      exact settleCount_eq_zero_of_bound h4
  · exact h6

theorem inv_sendRequest {s : ClientState} (m : String) (w : Option String)
    (hinv : Inv s) : Inv (sendRequest s m w).1 := by
  cases hp : s.hasProcess with
  | false =>
    rw [sendRequest_no_process m w hp]
    exact hinv
  | true =>
    cases w with
    | none =>
      rw [sendRequest_write_ok m hp]
      exact inv_register m hinv
    | some e =>
      rw [sendRequest_write_fail m e hp]
      refine inv_settleEntry _ (inv_register m hinv) ?_
      rw [hasEntry]
      rw [show ({ s with
          requestId := s.requestId + 1
          pendingRequests := setEntry s.requestId ⟨m, requestTimeoutMs⟩ s.pendingRequests
        } : ClientState).pendingRequests
        = setEntry s.requestId ⟨m, requestTimeoutMs⟩ s.pendingRequests from rfl]
      rw [findEntry_setEntry_self]
      rfl

theorem inv_handleMessage {s : ClientState} (msg : Message)
    (hinv : Inv s) : Inv (handleMessage s msg) := by
  cases hid : msg.id with
  | none => rw [handleMessage_id_none hid]; exact hinv
  | some i =>
    by_cases h : 0 < i ∧ hasEntry i s.pendingRequests = true
    · rw [handleMessage_matched hid h]
      exact inv_settleEntry _ hinv h.2
    · rw [handleMessage_unmatched hid h]
      exact hinv

theorem inv_expireRequest {s : ClientState} (i : Nat)
    (hinv : Inv s) : Inv (expireRequest s i) := by
  cases h : hasEntry i s.pendingRequests with
  | true =>
    rw [expireRequest_pending h]
    exact inv_settleEntry _ hinv h
  | false =>
    rw [expireRequest_not_pending h]
    exact hinv

theorem inv_step {s : ClientState} (e : Event) (hinv : Inv s) :
    Inv (step s e) := by
  cases e with
  | spawn => exact hinv
  | send m w => exact inv_sendRequest m w hinv
  | recv msg => exact inv_handleMessage msg hinv
  | expire i => exact inv_expireRequest i hinv
  | close => exact hinv
  | call n w =>
    show Inv (callTool s n w).1
    cases hc : s.connected with
    | false => rw [callTool_not_connected n w hc]; exact hinv
    | true =>
      rw [callTool_connected n w hc]
      exact inv_sendRequest toolsCallMethod w hinv

theorem inv_run {s : ClientState} (evts : List Event) (hinv : Inv s) :
    Inv (run s evts) := by
  induction evts generalizing s with
  | nil => exact hinv
  | cons e es ih => exact ih (inv_step e hinv)

theorem assignedOf_spec (s : ClientState) (e : Event) :
    (assignedOf s e = [] ∧ (step s e).requestId = s.requestId) ∨
    (assignedOf s e = [s.requestId] ∧
      (step s e).requestId = s.requestId + 1) := by
  cases e with
  | spawn => left; exact ⟨rfl, rfl⟩
  | send m w =>
    cases hp : s.hasProcess with
    | false =>
      left
      refine ⟨by simp [assignedOf, hp], ?_⟩
      show (sendRequest s m w).1.requestId = _
      rw [sendRequest_no_process m w hp]
    | true =>
      right
      refine ⟨by simp [assignedOf, hp], ?_⟩
      show (sendRequest s m w).1.requestId = _
      cases w with
      | none => rw [sendRequest_write_ok m hp]
      | some e' => rw [sendRequest_write_fail m e' hp]; rfl
  | recv msg =>
    left
    refine ⟨rfl, ?_⟩
    show (handleMessage s msg).requestId = s.requestId
    cases hid : msg.id with
    | none => rw [handleMessage_id_none hid]
    | some i =>
      by_cases h : 0 < i ∧ hasEntry i s.pendingRequests = true
      · rw [handleMessage_matched hid h]; rfl
      · rw [handleMessage_unmatched hid h]
  | expire i =>
    left
    refine ⟨rfl, ?_⟩
    show (expireRequest s i).requestId = s.requestId
    cases h : hasEntry i s.pendingRequests with
    | true => rw [expireRequest_pending h]; rfl
    | false => rw [expireRequest_not_pending h]
  | close => left; exact ⟨rfl, rfl⟩
  | call n w =>
    cases hc : s.connected with
    | false =>
      left
      refine ⟨by simp [assignedOf, hc], ?_⟩
      show (callTool s n w).1.requestId = _
      rw [callTool_not_connected n w hc]
    | true =>
      cases hp : s.hasProcess with
      | false =>
        left
        refine ⟨by simp [assignedOf, hc, hp], ?_⟩
        show (callTool s n w).1.requestId = _
        rw [callTool_connected n w hc, sendRequest_no_process _ w hp]
      | true =>
        right
        refine ⟨by simp [assignedOf, hc, hp], ?_⟩
        show (callTool s n w).1.requestId = _
        rw [callTool_connected n w hc]
        cases w with
        | none => rw [sendRequest_write_ok _ hp]
        | some e' => rw [sendRequest_write_fail _ e' hp]; rfl

theorem assigned_lb : ∀ (evts : List Event) (s : ClientState) (i : Nat),
    i ∈ assignedIds s evts → s.requestId ≤ i := by
  intro evts
  induction evts with
  | nil => intro s i h; simp [assignedIds] at h
  | cons e es ih =>
    intro s i h
    rw [assignedIds] at h
    rcases List.mem_append.mp h with h1 | h2
    · rcases assignedOf_spec s e with ⟨he, _⟩ | ⟨he, _⟩
      · rw [he] at h1; simp at h1
      · rw [he, List.mem_singleton] at h1
        omega
    · have := ih (step s e) i h2
      rcases assignedOf_spec s e with ⟨_, hr⟩ | ⟨_, hr⟩ <;> omega

theorem assigned_chain : ∀ (evts : List Event) (s : ClientState),
    List.Chain' (· < ·) (assignedIds s evts) := by
  intro evts
  induction evts with
  | nil => intro s; simp [assignedIds]
  | cons e es ih =>
    intro s
    rw [assignedIds]
    rcases assignedOf_spec s e with ⟨he, hr⟩ | ⟨he, hr⟩
    · rw [he, List.nil_append]
      exact ih (step s e)
    · rw [he, List.singleton_append, List.chain'_cons']
      refine ⟨?_, ih (step s e)⟩
      intro y hy
      have hmem := List.mem_of_mem_head? hy
      have := assigned_lb es (step s e) y hmem
      omega

theorem assigned_nodup (evts : List Event) (s : ClientState) :
    (assignedIds s evts).Nodup := by
  have h := List.chain'_iff_pairwise.mp (assigned_chain evts s)
  exact List.Pairwise.imp (fun hab => Nat.ne_of_lt hab) h

theorem assigned_head : ∀ (evts : List Event) (s : ClientState) (i : Nat),
    (assignedIds s evts).head? = some i → i = s.requestId := by
  intro evts
  induction evts with
  | nil => intro s i h; simp [assignedIds] at h
  | cons e es ih =>
    intro s i h
    rw [assignedIds] at h
    rcases assignedOf_spec s e with ⟨he, hr⟩ | ⟨he, hr⟩
    · rw [he, List.nil_append] at h
      rw [ih (step s e) i h, hr]
    · rw [he, List.singleton_append, List.head?_cons] at h
      exact (Option.some_injective _ h).symm

theorem hasEntry_settleEntry_self (s : ClientState) (i : Nat)
    (st : Settlement) :
    hasEntry i (settleEntry s i st).pendingRequests = false := by
  show hasEntry i (removeEntry i s.pendingRequests) = false
  rw [hasEntry, findEntry_removeEntry_self]
  rfl

theorem hasEntry_expireRequest_self (s : ClientState) (i : Nat) :
    hasEntry i (expireRequest s i).pendingRequests = false := by
  cases h : hasEntry i s.pendingRequests with
  | true => rw [expireRequest_pending h]; exact hasEntry_settleEntry_self s i _
  | false => rw [expireRequest_not_pending h]; exact h

/-- C1: at most one settlement ever occurs per request id: over every
event sequence from a fresh client each id's promise is settled at most
once; a response arriving after the deadline already fired its timeout
rejection is silently ignored, and after a matched response the deadline
expiry does nothing. -/
theorem claim_C1_single_settlement :
    (∀ (evts : List Event) (i : Nat),
      settleCount i (run mkClient evts).settlements ≤ 1) ∧
    (∀ (s : ClientState) (i : Nat) (msg : Message), msg.id = some i →
      handleMessage (expireRequest s i) msg = expireRequest s i) ∧
    (∀ (s : ClientState) (i : Nat) (msg : Message), msg.id = some i →
      0 < i → expireRequest (handleMessage s msg) i = handleMessage s msg) := by
  refine ⟨?_, ?_, ?_⟩
  · intro evts i
    exact (inv_run evts inv_mkClient).2.2.2.2.2 i
  · intro s i msg hid
    apply handleMessage_unmatched hid
    rintro ⟨_, h2⟩
    rw [hasEntry_expireRequest_self] at h2
    simp at h2
  · intro s i msg hid hpos
    by_cases h : 0 < i ∧ hasEntry i s.pendingRequests = true
    · rw [handleMessage_matched hid h]
      exact expireRequest_not_pending (hasEntry_settleEntry_self s i _)
    · rw [handleMessage_unmatched hid h]
      apply expireRequest_not_pending
      cases hh : hasEntry i s.pendingRequests with
      | false => rfl
      | true => exact absurd ⟨hpos, hh⟩ h

/-- Witness for C1: both no-double-settlement conjuncts at a concrete
state, id and message. -/
theorem claim_C1_witness :
    handleMessage (expireRequest exReady 1) (Message.mk (some 1) none none)
      = expireRequest exReady 1 ∧
    expireRequest (handleMessage exReady (Message.mk (some 1) none none)) 1
      = handleMessage exReady (Message.mk (some 1) none none) :=
  ⟨claim_C1_single_settlement.2.1 exReady 1 (Message.mk (some 1) none none) rfl,
   claim_C1_single_settlement.2.2 exReady 1 (Message.mk (some 1) none none)
     rfl (by decide)⟩

/-- C2 counterexample: two matched error responses that differ only in
the server-supplied error code settle the client identically, so the
rejection carries the message but cannot carry the code. -/
theorem claim_C2_counterexample :
    Message.mk (some 1) (some (ErrObj.mk (some errBoom) (some 1))) none ≠
      Message.mk (some 1) (some (ErrObj.mk (some errBoom) (some 2))) none ∧
    handleMessage exReady
        (Message.mk (some 1) (some (ErrObj.mk (some errBoom) (some 1))) none)
      = handleMessage exReady
        (Message.mk (some 1) (some (ErrObj.mk (some errBoom) (some 2))) none) := by
  exact ⟨by decide, rfl⟩

/-- C2 (amended): a framed message matching a pending id removes the
entry and settles its promise — rejecting with an error carrying the
server-supplied message (with the fallback text; the error code is
discarded) when an `error` field is present, else resolving with the
`result` field — and every non-matching message (including id-less
notifications) leaves the table and the settlement log unchanged. -/
theorem claim_C2_response_correlation :
    ∀ (s : ClientState) (msg : Message),
    (∀ i, msg.id = some i → 0 < i → hasEntry i s.pendingRequests = true →
      handleMessage s msg = { s with
        pendingRequests := removeEntry i s.pendingRequests
        settlements := s.settlements ++ [(i, settlementOf msg)] }) ∧
    (∀ e, msg.error = some e →
      settlementOf msg
        = Settlement.rejected (jsOrDefault e.message mcpErrorMsg)) ∧
    (msg.error = none → settlementOf msg = Settlement.resolved msg.result) ∧
    (msg.id = none → handleMessage s msg = s) ∧
    (∀ i, msg.id = some i →
      ¬(0 < i ∧ hasEntry i s.pendingRequests = true) →
      handleMessage s msg = s) := by
  intro s msg
  refine ⟨?_, ?_, ?_, ?_, ?_⟩
  · intro i hid hpos hhas
    rw [handleMessage_matched hid ⟨hpos, hhas⟩]
    rfl
  · intro e he
    simp only [settlementOf, he]
  · intro he
    simp only [settlementOf, he]
  · exact handleMessage_id_none
  · intro i hid h
    exact handleMessage_unmatched hid h

/-- Witness for C2: the matched-response conjunct at a concrete state
and message. -/
theorem claim_C2_witness :
    handleMessage exReady (Message.mk (some 1) none none) = { exReady with
      pendingRequests := removeEntry 1 exReady.pendingRequests
      settlements := exReady.settlements
        ++ [(1, settlementOf (Message.mk (some 1) none none))] } :=
  (claim_C2_response_correlation exReady (Message.mk (some 1) none none)).1
    1 rfl (by decide) (by decide)

/-- C3 counterexample: the entry registered for the `initialize`
handshake call carries the 15-second deadline, not a 60-second one. -/
theorem claim_C3_counterexample :
    findEntry 1 (sendRequest exSpawned initMethodName none).1.pendingRequests
      = some (Pending.mk initMethodName 15000) ∧ (15000 : Nat) ≠ 60000 := by
  exact ⟨rfl, by decide⟩

/-- C3 (corrected): every registered request, the `initialize` handshake
call included, gets the 15-second per-request deadline; the 60-second
deadline is the connection-level timeout of `connect`, not the
`initialize` request's; a deadline firing while its request is still
pending rejects it with the timeout error. -/
theorem claim_C3_request_deadline :
    requestTimeoutMs = 15000 ∧
    connectionTimeoutMs = 60000 ∧
    (∀ (s : ClientState) (m : String), s.hasProcess = true →
      findEntry s.requestId (sendRequest s m none).1.pendingRequests
        = some ⟨m, requestTimeoutMs⟩) ∧
    (∀ (s : ClientState) (i : Nat), hasEntry i s.pendingRequests = true →
      expireRequest s i = { s with
        pendingRequests := removeEntry i s.pendingRequests
        settlements := s.settlements
          ++ [(i, Settlement.rejected timeoutMsg)] }) := by
  refine ⟨rfl, rfl, ?_, ?_⟩
  · intro s m hp
    rw [sendRequest_write_ok m hp]
    show findEntry s.requestId
      (setEntry s.requestId ⟨m, requestTimeoutMs⟩ s.pendingRequests) = _
    exact findEntry_setEntry_self _ _ _
  · intro s i h
    rw [expireRequest_pending h]
    rfl

/-- Witness for C3 (corrected): the registered deadline and the expiry
effect at concrete states. -/
theorem claim_C3_witness :
    findEntry 1 (sendRequest exSpawned toolsListMethod none).1.pendingRequests
      = some (Pending.mk toolsListMethod requestTimeoutMs) ∧
    expireRequest exReady 1 = { exReady with
      pendingRequests := removeEntry 1 exReady.pendingRequests
      settlements := exReady.settlements
        ++ [(1, Settlement.rejected timeoutMsg)] } :=
  ⟨claim_C3_request_deadline.2.2.1 exSpawned toolsListMethod rfl,
   claim_C3_request_deadline.2.2.2 exReady 1 (by decide)⟩

/-- C4 counterexample: with `initialize` succeeding and `tools/list`
failing, the session still becomes connected and `connect` resolves. -/
theorem claim_C4_counterexample :
    (connectHandshake mkClient (Except.ok none)
      (Except.error errBoom)).1.connected = true ∧
    (connectHandshake mkClient (Except.ok none)
      (Except.error errBoom)).2 = Except.ok () := ⟨rfl, rfl⟩

/-- C4 (corrected): from a non-connected state the session becomes Ready
exactly when the `initialize` call succeeds: on `initialize` failure
`connect` rejects with that error and `connected` stays false, while a
`tools/list` failure is caught (logged only) and the session still
becomes Ready. -/
theorem claim_C4_ready_iff_init :
    ∀ (s : ClientState) (initRes : Except String (Option String))
      (toolsRes : Except String (Option (List String))),
      s.connected = false →
      (((connectHandshake s initRes toolsRes).1.connected = true) ↔
        (∃ v, initRes = Except.ok v)) ∧
      (((connectHandshake s initRes toolsRes).2 = Except.ok ()) ↔
        (∃ v, initRes = Except.ok v)) ∧
      (∀ e, initRes = Except.error e →
        connectHandshake s initRes toolsRes = (s, Except.error e)) := by
  intro s initRes toolsRes hc
  cases initRes <;> cases toolsRes <;> simp [connectHandshake, hc]

/-- Witness for C4 (corrected): both handshake calls succeeding on a
fresh client yields a connected session. -/
theorem claim_C4_witness :
    (connectHandshake mkClient (Except.ok none)
      (Except.ok none)).1.connected = true :=
  ((claim_C4_ready_iff_init mkClient (Except.ok none) (Except.ok none)
    rfl).1).mpr ⟨none, rfl⟩

/-- C5: ids are multiplexer-unique within a connection: the counter
starts at 1, assigned ids strictly increase (hence are never reused),
the first assigned id is 1, and the outstanding table's keys stay
pairwise distinct over every event sequence. -/
theorem claim_C5_id_uniqueness :
    mkClient.requestId = 1 ∧
    (∀ evts : List Event, List.Chain' (· < ·) (assignedIds mkClient evts)) ∧
    (∀ evts : List Event, (assignedIds mkClient evts).Nodup) ∧
    (∀ (evts : List Event) (i : Nat),
      (assignedIds mkClient evts).head? = some i → i = 1) ∧
    (∀ evts : List Event, (pendingIds (run mkClient evts)).Nodup) := by
  refine ⟨rfl, ?_, ?_, ?_, ?_⟩
  · intro evts
    exact assigned_chain evts mkClient
  · intro evts
    exact assigned_nodup evts mkClient
  · intro evts i h
    exact assigned_head evts mkClient i h
  · intro evts
    exact (inv_run evts inv_mkClient).2.2.1

/-- Witness for C5: the first id assigned after spawning is 1. -/
theorem claim_C5_witness : (1 : Nat) = 1 :=
  claim_C5_id_uniqueness.2.2.2.1 [Event.spawn, Event.send toolsListMethod none]
    1 rfl

/-- C6: a chunk sequence whose concatenation contains exactly N newline
characters yields exactly N complete messages, in order, byte-identical
to their source minus the trailing newline delimiter, with the
unterminated tail retained as the buffer. -/
theorem claim_C6_framer_messages :
    ∀ chunks : List (List Char),
      (processChunks [] chunks).1.length = chunks.flatten.count '\n' ∧
      unmsgs (processChunks [] chunks).1 ++ (processChunks [] chunks).2
        = chunks.flatten ∧
      (∀ m ∈ (processChunks [] chunks).1, '\n' ∉ m) := by
  intro chunks
  rw [processChunks_flatten chunks [] (by simp)]
  refine ⟨?_, ?_, ?_⟩
  · show (splitNl ([] ++ chunks.flatten)).dropLast.length = _
    rw [List.nil_append, List.length_dropLast, splitNl_length]
    omega
  · show unmsgs (splitNl ([] ++ chunks.flatten)).dropLast
      ++ lastD [] (splitNl ([] ++ chunks.flatten)) = _
    rw [List.nil_append]
    exact splitNl_reconstruct _
  · intro m hm
    have hmem : m ∈ splitNl ([] ++ chunks.flatten) := mem_of_mem_dropLast hm
    rw [List.nil_append] at hmem
    exact splitNl_no_nl _ m hmem

/-- Witness for C6: the no-newline conjunct at a concrete chunk list. -/
theorem claim_C6_witness : '\n' ∉ (['a'] : List Char) :=
  (claim_C6_framer_messages [['a', '\n']]).2.2 ['a'] (by decide)

/-- C7: splitting the input text at arbitrary boundaries and feeding the
pieces as separate chunks yields the same message sequence and final
buffer as feeding the unsplit text in one call. -/
theorem claim_C7_reassembly :
    ∀ pieces : List (List Char),
      processChunks [] pieces = processChunks [] [pieces.flatten] := by
  intro pieces
  rw [processChunks_flatten pieces [] (by simp),
    processChunks_flatten [pieces.flatten] [] (by simp),
    show ([pieces.flatten] : List (List Char)).flatten = pieces.flatten
      from by simp]

/-- C8: the process `close` handler only flips `connected` to false: the
outstanding-request table, the settlement log and the id counter are all
untouched, so no pending request is force-failed by the exit itself. -/
theorem claim_C8_close_no_flush :
    ∀ s : ClientState,
      handleClose s = { s with connected := false } ∧
      (handleClose s).pendingRequests = s.pendingRequests ∧
      (handleClose s).settlements = s.settlements ∧
      (handleClose s).requestId = s.requestId ∧
      (∀ i, settleCount i (handleClose s).settlements
        = settleCount i s.settlements) ∧
      (handleClose s).connected = false := by
  intro s
  exact ⟨rfl, rfl, rfl, rfl, fun i => rfl, rfl⟩

/-- C9: `callTool` while not connected rejects immediately with the
not-connected error and changes nothing: no stdin write happens and the
outstanding-request table is untouched. -/
theorem claim_C9_callTool_guard :
    ∀ (s : ClientState) (n : String) (w : Option String),
      s.connected = false →
      callTool s n w = (s, Except.error notConnectedMsg) ∧
      (callTool s n w).1.writes = s.writes ∧
      (callTool s n w).1.pendingRequests = s.pendingRequests := by
  intro s n w hc
  have h := callTool_not_connected n w hc
  exact ⟨h, by rw [h], by rw [h]⟩

/-- Witness for C9: a spawned but not yet connected client. -/
theorem claim_C9_witness :
    callTool exSpawned toolsCallMethod none
      = (exSpawned, Except.error notConnectedMsg) :=
  (claim_C9_callTool_guard exSpawned toolsCallMethod none rfl).1

/-- C10: when the stdin write throws, `sendRequest` removes the
just-registered entry for the allocated id and rejects with the write
error, so no orphaned pending entry remains for that id. -/
theorem claim_C10_write_failure_atomic :
    ∀ (s : ClientState) (m e : String),
      s.hasProcess = true →
      (sendRequest s m (some e)).2 = Except.error e ∧
      findEntry s.requestId
        (sendRequest s m (some e)).1.pendingRequests = none ∧
      (sendRequest s m (some e)).1.pendingRequests
        = removeEntry s.requestId s.pendingRequests ∧
      (sendRequest s m (some e)).1.settlements
        = s.settlements ++ [(s.requestId, Settlement.rejected e)] := by
  intro s m e hp
  rw [sendRequest_write_fail m e hp]
  refine ⟨rfl, ?_, ?_, rfl⟩
  · show findEntry s.requestId (removeEntry s.requestId
      (setEntry s.requestId ⟨m, requestTimeoutMs⟩ s.pendingRequests)) = none
    rw [findEntry_removeEntry_self]
  · show removeEntry s.requestId
      (setEntry s.requestId ⟨m, requestTimeoutMs⟩ s.pendingRequests) = _
    exact removeEntry_setEntry _ _ _

/-- Witness for C10: a concrete failed write on a spawned client. -/
theorem claim_C10_witness :
    (sendRequest exSpawned toolsCallMethod (some errBoom)).2
      = Except.error errBoom :=
  (claim_C10_write_failure_atomic exSpawned toolsCallMethod errBoom rfl).1

end MCPBridge
